import Mathlib

/-!
Shallow embedding of the route-optimisation core of this repository
(`src/otimizacao_rotas.py`, class `RedeDistribuicao`), together with proofs
about the properties stated in the specification.

The graph is backed by `networkx.DiGraph`.  We model it by the list of nodes
(in insertion order) and the list of directed edges, each edge being a key
`(origem, destino)` paired with its cost.  `add_node` keeps the node list
free of duplicates (re-adding a node only updates attributes), `add_edge`
auto-creates missing endpoints and overwrites the cost of an existing key in
place, and `remove_edge` deletes the key.  Node attributes (`tipo`) are only
used for bookkeeping of `armazem` / `clientes`, which `RedeDistribuicao`
stores separately; we therefore do not store them on the graph.

Costs are the natural numbers (the specification requires non-negative
numeric costs and the repository only ever uses non-negative integers).
-/

structure Grafo where
  nodes : List String
  edges : List ((String × String) × Nat)
deriving DecidableEq

/-- Model of `nx.DiGraph.add_node`: a node already present is kept in place
(only its attributes, which we do not store, would be updated); a new node is
appended, matching the insertion order of the underlying dict. -/
def Grafo.addNode (g : Grafo) (n : String) : Grafo :=
  if n ∈ g.nodes then g else { g with nodes := g.nodes ++ [n] }

/-- Overwrite the cost of key `k` in place if present, otherwise append the
new edge at the end — exactly the behaviour of assignment into the adjacency
dict of `nx.DiGraph.add_edge`. -/
def setCusto : List ((String × String) × Nat) → String × String → Nat → List ((String × String) × Nat)
  | [], k, c => [(k, c)]
  | e :: es, k, c => if e.1 = k then (k, c) :: es else e :: setCusto es k c

/-- Model of `nx.DiGraph.add_edge(u, v, ...)`: both endpoints are auto-created
if absent, and the edge cost for the ordered pair `(u, v)` is inserted or
overwritten. -/
def Grafo.addEdge (g : Grafo) (u v : String) (c : Nat) : Grafo :=
  let g' := (g.addNode u).addNode v
  { g' with edges := setCusto g'.edges (u, v) c }

/-- Model of `nx.DiGraph.remove_edge(u, v)` (in the repository it is only ever
invoked on edges known to be present, so the `NetworkXError` branch for a
missing edge is never reached). -/
def Grafo.removeEdge (g : Grafo) (u v : String) : Grafo :=
  { g with edges := g.edges.filter (fun e => decide (e.1 ≠ (u, v))) }

/-- Cost attribute of the edge `(u, v)`: first entry of the edge list with
key `(u, v)`, if any. -/
def Grafo.custo? (g : Grafo) (u v : String) : Option Nat :=
  (g.edges.find? (fun e => decide (e.1 = (u, v)))).map (fun e => e.2)

/-- Model of `self.grafo[u][v]['custo']`.  The repository only reads the cost
of edges that are present, so the default value of the `Option` is never
observed. -/
def Grafo.custo (g : Grafo) (u v : String) : Nat :=
  (g.custo? u v).getD 0

/-- Model of `nx.DiGraph.has_edge`. -/
def Grafo.hasEdge (g : Grafo) (u v : String) : Bool :=
  (g.custo? u v).isSome

/-- Model of `nx.DiGraph.successors(u)`: the targets of the edges leaving `u`,
in adjacency-insertion order. -/
def Grafo.successors (g : Grafo) (u : String) : List String :=
  (g.edges.filter (fun e => decide (e.1.1 = u))).map (fun e => e.1.2)

/-- Model of `nx.DiGraph.in_degree(c)`. -/
def Grafo.inDegree (g : Grafo) (c : String) : Nat :=
  g.edges.countP (fun e => decide (e.1.2 = c))

/-- Model of `nx.DiGraph.out_degree(c)`. -/
def Grafo.outDegree (g : Grafo) (c : String) : Nat :=
  g.edges.countP (fun e => decide (e.1.1 = c))

/-- Well-formedness of a graph state: no duplicate nodes, at most one edge per
ordered pair of endpoints, and every edge endpoint is a node.  Every graph
reachable through the `networkx` mutation API satisfies this. -/
def Grafo.WF (g : Grafo) : Prop :=
  g.nodes.Nodup ∧ (g.edges.map (fun e => e.1)).Nodup ∧
    ∀ e ∈ g.edges, e.1.1 ∈ g.nodes ∧ e.1.2 ∈ g.nodes

instance (g : Grafo) : Decidable g.WF := by
  unfold Grafo.WF
  infer_instance

/-- State of a `RedeDistribuicao` object: the graph, the single warehouse
designation (`None` until one is added), and the customer roster in insertion
order. -/
structure Rede where
  grafo : Grafo
  armazem : Option String
  clientes : List String
deriving DecidableEq

/-- Fresh `RedeDistribuicao()`. -/
def Rede.nova : Rede :=
  { grafo := { nodes := [], edges := [] }, armazem := none, clientes := [] }

/-- `RedeDistribuicao.adicionar_cidade(nome, tipo)`.  The role tag is the
plain string the source uses; `'armazem'` updates the warehouse pointer and
`'cliente'` appends to the roster (no deduplication). -/
def adicionar_cidade (r : Rede) (nome : String) (tipo : String) : Rede :=
  let r' := { r with grafo := r.grafo.addNode nome }
  if tipo = "armazem" then { r' with armazem := some nome }
  else if tipo = "cliente" then { r' with clientes := r'.clientes ++ [nome] }
  else r'

/-- `RedeDistribuicao.adicionar_estrada(cidade_origem, cidade_destino, custo)`:
a single `add_edge` call on the underlying graph (the `peso` and `custo`
attributes always hold the same value, so we store it once). -/
def adicionar_estrada (r : Rede) (u v : String) (custo : Nat) : Rede :=
  { r with grafo := r.grafo.addEdge u v custo }

/-- The recursive helper `dfs` shared verbatim by
`calcular_caminho_minimo_manual` and `comparar_rotas` (the source duplicates
the same code in both methods).  `caminho` is the path so far (ending in
`atual`), `custo` the accumulated cost, and `visitados` the set of nodes of
the current path excluding `atual`; the Python code adds `atual` before the
loop over successors and removes it on backtrack, so both the membership test
and the recursive call see `atual :: visitados`.  Results are appended in
depth-first visit order.  The `fuel` argument makes the recursion structural;
the termination theorem below shows that `g.nodes.length + 1` units are
always sufficient. -/
def dfsAll (g : Grafo) (destino : String) :
    Nat → String → List String → Nat → List String → List (List String × Nat)
  | 0, _, _, _, _ => []
  | fuel + 1, atual, caminho, custo, visitados =>
    if atual = destino then
      [(caminho, custo)]
    else
      (g.successors atual).flatMap (fun vizinho =>
        if vizinho ∈ atual :: visitados then []
        else
          dfsAll g destino fuel vizinho (caminho ++ [vizinho])
            (custo + g.custo atual vizinho) (atual :: visitados))

/-- Python's `min(l, key=lambda x: x[1])` starting from a first candidate `b`:
a later element replaces the current best only when its cost is strictly
smaller, so the first element attaining the minimum wins. -/
def menorAux (b : List String × Nat) (l : List (List String × Nat)) : List String × Nat :=
  l.foldl (fun b a => if a.2 < b.2 then a else b) b

/-- Python's `min(l, key=lambda x: x[1])`, returning `none` on the empty list
(where the source would not call it). -/
def menorPorCusto : List (List String × Nat) → Option (List String × Nat)
  | [] => none
  | x :: xs => some (menorAux x xs)

/-- Stable insertion used to model Python's stable `list.sort(key=...)`: the
new element `x` (which precedes the elements of the target list in the
original order) is placed before the first element whose cost is not
strictly smaller. -/
def insereCusto (x : List String × Nat) :
    List (List String × Nat) → List (List String × Nat)
  | [] => [x]
  | y :: ys => if y.2 < x.2 then y :: insereCusto x ys else x :: y :: ys

/-- Model of `caminhos_encontrados.sort(key=lambda x: x[1])`: a stable sort
ascending by cost. -/
def ordenaPorCusto (l : List (List String × Nat)) : List (List String × Nat) :=
  l.foldr insereCusto []

/-- The combining step shared by Python's `min` (fold direction) and by the
head of a stable insertion: keep `b` unless `a` is strictly cheaper. -/
def melhor (b a : List String × Nat) : List String × Nat :=
  if a.2 < b.2 then a else b

/-- `RedeDistribuicao.calcular_caminho_minimo_manual(origem, destino)`.
The Python method returns the tuple `(None, None)` when either endpoint is
absent or when the exhaustive search finds no path, and `(caminho, custo)`
otherwise; we model the two outcomes as an `Option` of the pair. -/
def calcular_caminho_minimo_manual (g : Grafo) (origem destino : String) :
    Option (List String × Nat) :=
  if origem ∉ g.nodes ∨ destino ∉ g.nodes then none
  else if origem = destino then some ([origem], 0)
  else menorPorCusto (dfsAll g destino (g.nodes.length + 1) origem [origem] 0 [])

/-- `RedeDistribuicao.comparar_rotas(origem, destino)`.  The method has no
presence check: its `dfs` first tests `atual == destino` (so an absent origin
equal to the destination still yields the single trivial path), and otherwise
immediately iterates `self.grafo.successors(origem)`, which raises
`NetworkXError` when `origem` is not a node.  Deeper calls only visit edge
targets, which the graph always contains, so the root call is the only place
an exception can escape; we model that exceptional outcome as `Except.error`.
Otherwise the method returns all found `(path, cost)` pairs sorted (stably)
by ascending cost. -/
def comparar_rotas (g : Grafo) (origem destino : String) :
    Except Unit (List (List String × Nat)) :=
  if origem ≠ destino ∧ origem ∉ g.nodes then Except.error ()
  else Except.ok (ordenaPorCusto (dfsAll g destino (g.nodes.length + 1) origem [origem] 0 []))

/-- `RedeDistribuicao.simular_falha_estrada(u, v)`: when the edge is present,
a deep copy of the current graph is taken as backup, the edge is removed from
the live graph, and the backup is returned; otherwise nothing changes and the
method returns `None`.  The returned pair is (return value, mutated state). -/
def simular_falha_estrada (r : Rede) (u v : String) : Option Grafo × Rede :=
  if r.grafo.hasEdge u v then
    (some r.grafo, { r with grafo := r.grafo.removeEdge u v })
  else
    (none, r)

/-- `RedeDistribuicao.restaurar_grafo(grafo_backup)`: reinstates the backup
when one is given (`if grafo_backup:`), otherwise leaves the state alone. -/
def restaurar_grafo (r : Rede) (backup : Option Grafo) : Rede :=
  match backup with
  | some g => { r with grafo := g }
  | none => r

/-- Classification record appended to `analise['estradas_criticas']` for one
edge: either `CRÍTICA` with the customers whose routes became impossible, or
`IMPORTANTE` with the accumulated cost impact and the affected routes. -/
inductive Criticidade where
  | critica (rotas_impossiveis : List String)
  | importante (impacto : Nat) (rotas_afetadas : List (String × Nat))
deriving DecidableEq

/-- Result of `RedeDistribuicao.analisar_robustez` (we keep the two fields the
specification's claims are about; `impacto_falhas` only duplicates per-edge
data and the `razao` strings are constants).  Each entry of
`cidades_criticas` is the city with its recorded in- and out-degree. -/
structure Analise where
  estradas_criticas : List ((String × String) × Criticidade)
  cidades_criticas : List (String × Nat × Nat)
deriving DecidableEq

/-- Inner customer loop of `analisar_robustez` for one removed edge, run on
the already-mutated graph `g'`.  Faithful to the source, *both*
`caminho_original` and `caminho_novo` are computed by the same call on `g'`
(the pre-removal cost is never captured), so `diferenca` compares a value to
itself.  The accumulator is `(rotas_impossiveis, rotas_afetadas,
impacto_total)`; the `float('inf')` assigned to `impacto_total` in the
impossible branch is not tracked because the classification tests
`rotas_impossiveis` first and never reads the number in that case.
`if self.armazem:` is the `None`-test on the warehouse designation, and
`elif caminho_original:` the truthiness test on the (always non-empty when
present) returned path. -/
def analisarEstrada (armazem : Option String) (clientes : List String) (g' : Grafo) :
    List String × List (String × Nat) × Nat :=
  clientes.foldl
    (fun acc cliente =>
      match armazem with
      | none => acc
      | some a =>
        let original := calcular_caminho_minimo_manual g' a cliente
        let novo := calcular_caminho_minimo_manual g' a cliente
        match novo with
        | none => (acc.1 ++ [cliente], acc.2.1, acc.2.2)
        | some pn =>
          match original with
          | none => acc
          | some po =>
            let diferenca := pn.2 - po.2
            if 0 < diferenca then
              (acc.1, acc.2.1 ++ [(cliente, diferenca)], acc.2.2 + diferenca)
            else acc)
    ([], [], 0)

/-- Body of the per-edge loop of `analisar_robustez`: save the cost of the
edge, remove it, evaluate every warehouse→customer route on the mutated
graph, restore the edge with the saved cost (`add_edge` re-appends it at the
end of the adjacency, which permutes the stored edge order but no observable
quantity of the analysis depends on that order), and classify. -/
def robustezPasso (armazem : Option String) (clientes : List String)
    (st : Grafo × List ((String × String) × Criticidade)) (uv : String × String) :
    Grafo × List ((String × String) × Criticidade) :=
  let g := st.1
  let custo_original := g.custo uv.1 uv.2
  let g' := g.removeEdge uv.1 uv.2
  let res := analisarEstrada armazem clientes g'
  let gRest := g'.addEdge uv.1 uv.2 custo_original
  let entry : List ((String × String) × Criticidade) :=
    if res.1 ≠ [] then [(uv, Criticidade.critica res.1)]
    else if 0 < res.2.2 then [(uv, Criticidade.importante res.2.2 res.2.1)]
    else []
  (gRest, st.2 ++ entry)

/-- `RedeDistribuicao.analisar_robustez()`.  The edge loop iterates over a
snapshot `list(self.grafo.edges())` of the edge keys taken before any
mutation; the city loop then classifies, on the (restored) graph, every
non-warehouse city whose in- or out-degree is exactly 1.  `networkx` lists
the snapshot grouped by source node while we keep global insertion order;
each edge's classification is independent of the processing order of the
others (every step restores the edge set and all costs), so the set of
classifications is unaffected. -/
def analisar_robustez (r : Rede) : Analise :=
  let estradas := r.grafo.edges.map (fun e => e.1)
  let final := estradas.foldl (robustezPasso r.armazem r.clientes) (r.grafo, [])
  let cidades := final.1.nodes.filterMap (fun cidade =>
    if r.armazem = some cidade then none
    else
      let ge := final.1.inDegree cidade
      let gs := final.1.outDegree cidade
      if ge = 1 ∨ gs = 1 then some (cidade, ge, gs) else none)
  { estradas_criticas := final.2, cidades_criticas := cidades }

/-! ### Specification-side notions

`CaminhoSimples g o d p` renders the specification's definition of a path:
an ordered sequence of distinct node identifiers starting at `o` and ending
at `d` in which each consecutive pair is a directed edge of the model; its
cost is the sum of the traversed edge costs. -/

/-- Specification notion of a simple directed path from `o` to `d`. -/
def CaminhoSimples (g : Grafo) (o d : String) (p : List String) : Prop :=
  p.head? = some o ∧ p.getLast? = some d ∧
    List.Chain' (fun a b => g.hasEdge a b = true) p ∧ p.Nodup

/-- Total cost of a path: the sum of the costs of its consecutive edges. -/
def custoCaminho (g : Grafo) : List String → Nat
  | a :: b :: resto => g.custo a b + custoCaminho g (b :: resto)
  | _ => 0

/-- Cost of the walk that starts at `a` and then visits `s` in order. -/
def walkCost (g : Grafo) : String → List String → Nat
  | _, [] => 0
  | a, v :: s => g.custo a v + walkCost g v s

/-- Characterisation of the continuations explored by `dfs` from `atual` with
path-local visited set `visitados`: `Continuacao g d visitados atual s` holds exactly
for the node sequences `s` the search appends to the current path before
recording a result. -/
def Continuacao (g : Grafo) (destino : String) : List String → String → List String → Prop
  | _, atual, [] => atual = destino
  | visitados, atual, v :: s =>
      atual ≠ destino ∧ v ∈ g.successors atual ∧ v ∉ atual :: visitados ∧
        Continuacao g destino (atual :: visitados) v s

/-! ### Concrete models used by the specification's scenarios -/

/-- Scenario graph of §8: warehouse `A`, customer `C`, edges `A→B` (10),
`B→C` (5), `A→C` (30). -/
def redeABC : Rede :=
  adicionar_estrada (adicionar_estrada (adicionar_estrada
    (adicionar_cidade (adicionar_cidade (adicionar_cidade Rede.nova
      "A" "armazem") "B" "intermediaria") "C" "cliente")
    "A" "B" 10) "B" "C" 5) "A" "C" 30

/-- Scenario graph of §8: only edge `A→B` (cost 1), warehouse `A`, customer
roster `[B]`. -/
def redeAB : Rede :=
  adicionar_estrada
    (adicionar_cidade (adicionar_cidade Rede.nova "A" "armazem") "B" "cliente")
    "A" "B" 1

/-- Two isolated nodes, used to exhibit the indistinguishability of the
absent-endpoint and present-but-unreachable outcomes. -/
def redeDesconexa : Rede :=
  adicionar_cidade (adicionar_cidade Rede.nova "A" "armazem") "B" "cliente"

/-! ### Basic lemmas about the graph model -/

theorem hasEdge_iff {g : Grafo} {u v : String} :
    g.hasEdge u v = true ↔ ∃ c, ((u, v), c) ∈ g.edges := by
  unfold Grafo.hasEdge Grafo.custo?
  rw [Option.isSome_map']
  rw [List.find?_isSome]
  constructor
  · rintro ⟨⟨k, c⟩, hm, hk⟩
    simp only [decide_eq_true_eq] at hk
    exact ⟨c, by simpa [hk] using hm⟩
  · rintro ⟨c, hm⟩
    exact ⟨((u, v), c), hm, by simp⟩

theorem mem_successors {g : Grafo} {u v : String} :
    v ∈ g.successors u ↔ g.hasEdge u v = true := by
  rw [hasEdge_iff]
  unfold Grafo.successors
  constructor
  · intro h
    rcases List.mem_map.1 h with ⟨e, he, hv⟩
    rcases List.mem_filter.1 he with ⟨hme, hu⟩
    simp only [decide_eq_true_eq] at hu
    refine ⟨e.2, ?_⟩
    have : ((u, v), e.2) = e := by
      rcases e with ⟨⟨a, b⟩, c⟩
      simp_all
    rw [this]; exact hme
  · rintro ⟨c, hm⟩
    exact List.mem_map.2 ⟨((u, v), c), List.mem_filter.2 ⟨hm, by simp⟩, rfl⟩

theorem successors_eq_nil {g : Grafo} (hWF : g.WF) {u : String} (hu : u ∉ g.nodes) :
    g.successors u = [] := by
  unfold Grafo.successors
  rw [List.filter_eq_nil_iff.2, List.map_nil]
  intro e he
  simp only [decide_eq_true_eq]
  intro hsrc
  exact hu (hsrc ▸ (hWF.2.2 e he).1)

theorem successors_nodup {g : Grafo} (hWF : g.WF) (u : String) :
    (g.successors u).Nodup := by
  have hsub : List.Sublist ((g.edges.filter (fun e => decide (e.1.1 = u))).map (fun e => e.1))
      (g.edges.map (fun e => e.1)) :=
    (List.filter_sublist _).map _
  have hkeys : ((g.edges.filter (fun e => decide (e.1.1 = u))).map (fun e => e.1)).Nodup :=
    hWF.2.1.sublist hsub
  have hinj := List.inj_on_of_nodup_map hkeys
  have hnd : (g.edges.filter (fun e => decide (e.1.1 = u))).Nodup := hkeys.of_map _
  unfold Grafo.successors
  refine hnd.map_on ?_
  intro x hx y hy hxy
  rcases List.mem_filter.1 hx with ⟨hx', hxu⟩
  rcases List.mem_filter.1 hy with ⟨hy', hyu⟩
  simp only [decide_eq_true_eq] at hxu hyu
  have hkey : x.1 = y.1 := by
    rcases x with ⟨⟨a, b⟩, c⟩
    rcases y with ⟨⟨a', b'⟩, c'⟩
    simp_all
  exact hinj hx hy hkey

/-! ### The stable sort and Python `min` agree on the selected element -/

theorem menorAux_eq_foldl (b : List String × Nat) (l : List (List String × Nat)) :
    menorAux b l = l.foldl melhor b := rfl

theorem melhor_assoc (a b c : List String × Nat) :
    melhor (melhor a b) c = melhor a (melhor b c) := by
  unfold melhor
  split_ifs <;> first | rfl | omega

theorem menorAux_melhor (l : List (List String × Nat)) :
    ∀ a b, menorAux (melhor a b) l = melhor a (menorAux b l) := by
  induction l with
  | nil => intro a b; rfl
  | cons c l ih =>
    intro a b
    show menorAux (melhor (melhor a b) c) l = melhor a (menorAux (melhor b c) l)
    rw [melhor_assoc, ih]

theorem insereCusto_ne_nil (x : List String × Nat) (l : List (List String × Nat)) :
    insereCusto x l ≠ [] := by
  cases l with
  | nil => simp [insereCusto]
  | cons y ys =>
    unfold insereCusto
    split <;> simp

theorem head?_ordena (l : List (List String × Nat)) :
    ∀ x, (ordenaPorCusto (x :: l)).head? = some (menorAux x l) := by
  induction l with
  | nil => intro x; rfl
  | cons y l ih =>
    intro x
    have hT : ordenaPorCusto (x :: y :: l) = insereCusto x (ordenaPorCusto (y :: l)) := rfl
    rcases hcons : ordenaPorCusto (y :: l) with _ | ⟨t, ts⟩
    · exact absurd hcons (insereCusto_ne_nil _ _)
    · have ht : t = menorAux y l := by
        have := ih y
        rw [hcons] at this
        simpa using this
      rw [hT, hcons]
      show (if t.2 < x.2 then t :: insereCusto x ts else x :: t :: ts).head? =
        some (menorAux x (y :: l))
      have hrhs : menorAux x (y :: l) = melhor x (menorAux y l) := by
        show menorAux (melhor x y) l = melhor x (menorAux y l)
        exact menorAux_melhor l x y
      rw [hrhs, ← ht]
      unfold melhor
      split <;> simp

theorem menorAux_of_min {l : List (List String × Nat)} {b : List String × Nat}
    (h : ∀ a ∈ l, b.2 ≤ a.2) : menorAux b l = b := by
  induction l with
  | nil => rfl
  | cons c l ih =>
    show menorAux (melhor b c) l = b
    have hbc : melhor b c = b := by
      unfold melhor
      have := h c (by simp)
      split <;> first | rfl | omega
    rw [hbc]
    exact ih (fun a ha => h a (by simp [ha]))

theorem mem_insereCusto {a x : List String × Nat} {l : List (List String × Nat)} :
    a ∈ insereCusto x l ↔ a = x ∨ a ∈ l := by
  induction l with
  | nil => simp [insereCusto]
  | cons y ys ih =>
    unfold insereCusto
    split
    · simp only [List.mem_cons, ih]
      tauto
    · simp only [List.mem_cons]

theorem perm_insereCusto (x : List String × Nat) (l : List (List String × Nat)) :
    List.Perm (insereCusto x l) (x :: l) := by
  induction l with
  | nil => rfl
  | cons y ys ih =>
    unfold insereCusto
    split
    · exact (ih.cons y).trans (List.Perm.swap x y ys)
    · rfl

theorem perm_ordena (l : List (List String × Nat)) : List.Perm (ordenaPorCusto l) l := by
  induction l with
  | nil => rfl
  | cons x l ih =>
    have : ordenaPorCusto (x :: l) = insereCusto x (ordenaPorCusto l) := rfl
    rw [this]
    exact (perm_insereCusto x _).trans (ih.cons x)

theorem pairwise_insereCusto {l : List (List String × Nat)} {x : List String × Nat}
    (h : l.Pairwise (fun a b => a.2 ≤ b.2)) :
    (insereCusto x l).Pairwise (fun a b => a.2 ≤ b.2) := by
  induction l with
  | nil => simp [insereCusto]
  | cons y ys ih =>
    rcases List.pairwise_cons.1 h with ⟨hy, hys⟩
    unfold insereCusto
    split
    · refine List.pairwise_cons.2 ⟨?_, ih hys⟩
      intro a ha
      rcases mem_insereCusto.1 ha with rfl | ha
      · omega
      · exact hy a ha
    · refine List.pairwise_cons.2 ⟨?_, h⟩
      intro a ha
      rcases List.mem_cons.1 ha with rfl | ha
      · omega
      · have := hy a ha
        omega

theorem sorted_ordena (l : List (List String × Nat)) :
    (ordenaPorCusto l).Pairwise (fun a b => a.2 ≤ b.2) := by
  induction l with
  | nil => simp [ordenaPorCusto]
  | cons x l ih => exact pairwise_insereCusto ih

theorem walkCost_eq_custoCaminho (g : Grafo) :
    ∀ (s : List String) (a : String), walkCost g a s = custoCaminho g (a :: s) := by
  intro s
  induction s with
  | nil => intro a; rfl
  | cons v s ih =>
    intro a
    show g.custo a v + walkCost g v s = g.custo a v + custoCaminho g (v :: s)
    rw [ih]

theorem filter_notMem_cons_length {l vis : List String} {a : String}
    (hl : l.Nodup) (ha : a ∈ l) (hav : a ∉ vis) :
    (l.filter (fun n => decide (n ∉ a :: vis))).length + 1 =
      (l.filter (fun n => decide (n ∉ vis))).length := by
  induction l with
  | nil => cases ha
  | cons x l ih =>
    rcases List.nodup_cons.1 hl with ⟨hx, hl'⟩
    by_cases hxa : x = a
    · subst hxa
      have hfx : ∀ n ∈ l, (decide (n ∉ x :: vis)) = (decide (n ∉ vis)) := by
        intro n hn
        have hnx : n ≠ x := fun h => hx (h ▸ hn)
        simp [List.mem_cons, hnx]
      rw [List.filter_cons, List.filter_cons]
      have h1 : (decide (x ∉ x :: vis)) = false := by simp
      have h2 : (decide (x ∉ vis)) = true := by simpa using hav
      rw [h1, h2, List.filter_congr hfx]
      simp
    · have ha' : a ∈ l := by
        rcases List.mem_cons.1 ha with h | h
        · exact absurd h.symm hxa
        · exact h
      rw [List.filter_cons, List.filter_cons]
      have hsame : (decide (x ∉ a :: vis)) = (decide (x ∉ vis)) := by
        simp [List.mem_cons, hxa]
      rw [hsame]
      cases hmem : (decide (x ∉ vis)) with
      | true => simpa using ih hl' ha'
      | false => simpa using ih hl' ha'

theorem dfsAll_mem {g : Grafo} (hWF : g.WF) {destino : String} :
    ∀ (fuel : Nat) (atual : String) (caminho visitados : List String) (custo : Nat),
      atual ∉ visitados →
      (g.nodes.filter (fun n => decide (n ∉ visitados))).length < fuel →
      ∀ q c, ((q, c) ∈ dfsAll g destino fuel atual caminho custo visitados ↔
        ∃ s, Continuacao g destino visitados atual s ∧ q = caminho ++ s ∧
          c = custo + walkCost g atual s) := by
  intro fuel
  induction fuel with
  | zero => intro _ _ _ _ _ hb; exact absurd hb (Nat.not_lt_zero _)
  | succ fuel ih =>
    intro atual caminho visitados custo hav hb q c
    by_cases hd : atual = destino
    · subst hd
      simp only [dfsAll, if_pos rfl]
      constructor
      · intro hmem
        rcases List.mem_singleton.1 hmem with h
        refine ⟨[], rfl, ?_, ?_⟩
        · simpa using congrArg Prod.fst h
        · simpa using congrArg Prod.snd h
      · rintro ⟨s, hcont, hq, hc⟩
        cases s with
        | nil =>
          simp only [List.append_nil] at hq
          simp only [walkCost] at hc
          simp [hq, hc]
        | cons v s' => exact absurd rfl hcont.1
    · simp only [dfsAll, if_neg hd]
      constructor
      · intro hmem
        rcases List.mem_flatMap.1 hmem with ⟨v, hv, hin⟩
        have han : atual ∈ g.nodes := by
          by_contra han
          rw [successors_eq_nil hWF han] at hv
          cases hv
        have hb' : (g.nodes.filter (fun n => decide (n ∉ atual :: visitados))).length < fuel := by
          have := filter_notMem_cons_length hWF.1 han hav
          omega
        by_cases hvv : v ∈ atual :: visitados
        · rw [if_pos hvv] at hin; cases hin
        · rw [if_neg hvv] at hin
          rcases (ih v (caminho ++ [v]) (atual :: visitados)
              (custo + g.custo atual v) hvv hb' q c).1 hin with ⟨s, hcont, hq, hc⟩
          refine ⟨v :: s, ⟨hd, hv, hvv, hcont⟩, ?_, ?_⟩
          · rw [hq, List.append_assoc]
            rfl
          · show c = custo + walkCost g atual (v :: s)
            have : walkCost g atual (v :: s) = g.custo atual v + walkCost g v s := rfl
            omega
      · rintro ⟨s, hcont, hq, hc⟩
        cases s with
        | nil => exact absurd hcont hd
        | cons v s' =>
          rcases hcont with ⟨-, hvsucc, hvv, hcont'⟩
          have han : atual ∈ g.nodes := by
            by_contra han
            rw [successors_eq_nil hWF han] at hvsucc
            cases hvsucc
          have hb' : (g.nodes.filter (fun n => decide (n ∉ atual :: visitados))).length < fuel := by
            have := filter_notMem_cons_length hWF.1 han hav
            omega
          refine List.mem_flatMap.2 ⟨v, hvsucc, ?_⟩
          rw [if_neg hvv]
          refine (ih v (caminho ++ [v]) (atual :: visitados)
              (custo + g.custo atual v) hvv hb' q c).2 ⟨s', hcont', ?_, ?_⟩
          · rw [hq, List.append_assoc]
            rfl
          · have : walkCost g atual (v :: s') = g.custo atual v + walkCost g v s' := rfl
            omega

theorem Continuacao_iff {g : Grafo} {destino : String} :
    ∀ (s visitados : List String) (atual : String),
      Continuacao g destino visitados atual s ↔
        List.Chain' (fun a b => g.hasEdge a b = true) (atual :: s) ∧
          (atual :: s).getLast? = some destino ∧ (atual :: s).Nodup ∧
          ∀ x ∈ s, x ∉ visitados := by
  intro s
  induction s with
  | nil =>
    intro visitados atual
    simp only [Continuacao]
    constructor
    · rintro rfl
      simp
    · rintro ⟨-, hlast, -, -⟩
      simpa using hlast
  | cons v s' ih =>
    intro visitados atual
    simp only [Continuacao]
    rw [ih (atual :: visitados) v]
    constructor
    · rintro ⟨hd, hvsucc, hvv, hchain, hlast, hnodup, hvis⟩
      have hvne : v ≠ atual := by
        intro h
        exact hvv (h ▸ List.mem_cons_self atual visitados)
      refine ⟨List.chain'_cons.2 ⟨mem_successors.1 hvsucc, hchain⟩, ?_, ?_, ?_⟩
      · rwa [List.getLast?_cons_cons]
      · refine List.nodup_cons.2 ⟨?_, hnodup⟩
        intro hmem
        rcases List.mem_cons.1 hmem with h | h
        · exact hvne h.symm
        · exact (hvis atual h) (List.mem_cons_self atual visitados)
      · intro x hx
        rcases List.mem_cons.1 hx with rfl | hx'
        · intro hxv
          exact hvv (List.mem_cons_of_mem atual hxv)
        · intro hxv
          exact (hvis x hx') (List.mem_cons_of_mem atual hxv)
    · rintro ⟨hchain, hlast, hnodup, hvis⟩
      rcases List.nodup_cons.1 hnodup with ⟨hatual, hnodup'⟩
      have hd : atual ≠ destino := by
        intro h
        subst h
        rw [List.getLast?_cons_cons] at hlast
        exact hatual (List.mem_of_getLast?_eq_some hlast)
      refine ⟨hd, mem_successors.2 (List.chain'_cons.1 hchain).1, ?_, ?_, ?_, ?_, ?_⟩
      · intro hmem
        rcases List.mem_cons.1 hmem with h | h
        · exact hatual (h ▸ List.mem_cons_self v s')
        · exact (hvis v (List.mem_cons_self v s')) h
      · exact (List.chain'_cons.1 hchain).2
      · rwa [List.getLast?_cons_cons] at hlast
      · exact hnodup'
      · intro x hx
        intro hmem
        rcases List.mem_cons.1 hmem with h | h
        · exact hatual (h ▸ List.mem_cons_of_mem v hx)
        · exact (hvis x (List.mem_cons_of_mem v hx)) h

theorem dfsAll_top_mem {g : Grafo} (hWF : g.WF) (o d : String) (q : List String) (c : Nat) :
    (q, c) ∈ dfsAll g d (g.nodes.length + 1) o [o] 0 [] ↔
      CaminhoSimples g o d q ∧ c = custoCaminho g q := by
  have hb : (g.nodes.filter (fun n => decide (n ∉ ([] : List String)))).length <
      g.nodes.length + 1 := by
    have : g.nodes.filter (fun n => decide (n ∉ ([] : List String))) = g.nodes :=
      List.filter_eq_self.2 (by simp)
    rw [this]
    omega
  rw [dfsAll_mem hWF (g.nodes.length + 1) o [o] [] 0 (by simp) hb q c]
  constructor
  · rintro ⟨s, hcont, hq, hc⟩
    rcases (Continuacao_iff s [] o).1 hcont with ⟨hchain, hlast, hnodup, -⟩
    have hq' : q = o :: s := hq
    refine ⟨⟨by rw [hq']; rfl, by rw [hq']; exact hlast, by rw [hq']; exact hchain,
      by rw [hq']; exact hnodup⟩, ?_⟩
    rw [hc, hq', ← walkCost_eq_custoCaminho]
    omega
  · rintro ⟨⟨hhead, hlast, hchain, hnodup⟩, hc⟩
    cases q with
    | nil => cases hhead
    | cons h t =>
      have ho : h = o := by simpa using hhead
      subst ho
      refine ⟨t, (Continuacao_iff t [] h).2 ⟨hchain, hlast, hnodup, by simp⟩, rfl, ?_⟩
      rw [hc, walkCost_eq_custoCaminho]
      omega

theorem dfsAll_fuel_congr {g : Grafo} (hWF : g.WF) {destino : String} :
    ∀ (fuel₁ fuel₂ : Nat) (atual : String) (caminho visitados : List String) (custo : Nat),
      atual ∉ visitados →
      (g.nodes.filter (fun n => decide (n ∉ visitados))).length < fuel₁ →
      (g.nodes.filter (fun n => decide (n ∉ visitados))).length < fuel₂ →
      dfsAll g destino fuel₁ atual caminho custo visitados =
        dfsAll g destino fuel₂ atual caminho custo visitados := by
  intro fuel₁
  induction fuel₁ with
  | zero => intro _ _ _ _ _ _ hb _; exact absurd hb (Nat.not_lt_zero _)
  | succ f ih =>
    intro fuel₂ atual caminho visitados custo hav hb1 hb2
    cases fuel₂ with
    | zero => exact absurd hb2 (Nat.not_lt_zero _)
    | succ f₂ =>
      simp only [dfsAll]
      by_cases hd : atual = destino
      · rw [if_pos hd, if_pos hd]
      · rw [if_neg hd, if_neg hd]
        by_cases han : atual ∈ g.nodes
        · have hdec := filter_notMem_cons_length hWF.1 han hav
          rw [List.flatMap_def, List.flatMap_def]
          refine congrArg List.flatten (List.map_congr_left ?_)
          intro v hv
          by_cases hvv : v ∈ atual :: visitados
          · rw [if_pos hvv, if_pos hvv]
          · rw [if_neg hvv, if_neg hvv]
            exact ih f₂ v (caminho ++ [v]) (atual :: visitados)
              (custo + g.custo atual v) hvv (by omega) (by omega)
        · rw [successors_eq_nil hWF han]
          simp

theorem dfsAll_shape {g : Grafo} {destino : String} :
    ∀ (fuel : Nat) (atual : String) (caminho visitados : List String) (custo : Nat)
      (q : List String) (c : Nat),
      (q, c) ∈ dfsAll g destino fuel atual caminho custo visitados →
      ∃ s, q = caminho ++ s := by
  intro fuel
  induction fuel with
  | zero => intro _ _ _ _ _ _ h; cases h
  | succ f ih =>
    intro atual caminho visitados custo q c h
    by_cases hd : atual = destino
    · simp only [dfsAll, if_pos hd] at h
      rcases List.mem_singleton.1 h with h'
      exact ⟨[], by simpa using (congrArg Prod.fst h').symm.symm⟩
    · simp only [dfsAll, if_neg hd] at h
      rcases List.mem_flatMap.1 h with ⟨v, hv, hin⟩
      by_cases hvv : v ∈ atual :: visitados
      · rw [if_pos hvv] at hin; cases hin
      · rw [if_neg hvv] at hin
        rcases ih v (caminho ++ [v]) (atual :: visitados) (custo + g.custo atual v) q c hin
          with ⟨s, hs⟩
        refine ⟨v :: s, ?_⟩
        rw [hs, List.append_assoc]
        rfl

theorem dfsAll_paths_nodup {g : Grafo} (hWF : g.WF) {destino : String} :
    ∀ (fuel : Nat) (atual : String) (caminho visitados : List String) (custo : Nat),
      ((dfsAll g destino fuel atual caminho custo visitados).map (fun r => r.1)).Nodup := by
  intro fuel
  induction fuel with
  | zero => intro atual caminho visitados custo; simp [dfsAll]
  | succ f ih =>
    intro atual caminho visitados custo
    by_cases hd : atual = destino
    · simp [dfsAll, if_pos hd]
    · simp only [dfsAll, if_neg hd]
      rw [List.map_flatMap, List.nodup_flatMap]
      constructor
      · intro v hv
        by_cases hvv : v ∈ atual :: visitados
        · rw [if_pos hvv]
          simp
        · rw [if_neg hvv]
          exact ih v (caminho ++ [v]) (atual :: visitados) (custo + g.custo atual v)
      · refine (successors_nodup hWF atual).imp ?_
        intro v₁ v₂ hne
        intro q hq1 hq2
        simp only at hq1 hq2
        by_cases h1 : v₁ ∈ atual :: visitados
        · rw [if_pos h1] at hq1
          cases hq1
        by_cases h2 : v₂ ∈ atual :: visitados
        · rw [if_pos h2] at hq2
          cases hq2
        rw [if_neg h1] at hq1
        rw [if_neg h2] at hq2
        rcases List.mem_map.1 hq1 with ⟨⟨q₁, c₁⟩, hm1, hq1'⟩
        rcases List.mem_map.1 hq2 with ⟨⟨q₂, c₂⟩, hm2, hq2'⟩
        rcases dfsAll_shape f v₁ (caminho ++ [v₁]) (atual :: visitados)
          (custo + g.custo atual v₁) q₁ c₁ hm1 with ⟨s₁, hs₁⟩
        rcases dfsAll_shape f v₂ (caminho ++ [v₂]) (atual :: visitados)
          (custo + g.custo atual v₂) q₂ c₂ hm2 with ⟨s₂, hs₂⟩
        apply hne
        have e1 : q.drop caminho.length = v₁ :: s₁ := by
          rw [← hq1', hs₁, List.append_assoc]
          exact List.drop_left caminho ([v₁] ++ s₁)
        have e2 : q.drop caminho.length = v₂ :: s₂ := by
          rw [← hq2', hs₂, List.append_assoc]
          exact List.drop_left caminho ([v₂] ++ s₂)
        have := e1.symm.trans e2
        exact (List.cons.injEq _ _ _ _ ▸ this).1

theorem menorPorCusto_ordena (l : List (List String × Nat)) :
    menorPorCusto (ordenaPorCusto l) = menorPorCusto l := by
  cases l with
  | nil => rfl
  | cons x l =>
    rcases hcons : ordenaPorCusto (x :: l) with _ | ⟨s, ss⟩
    · have := (perm_ordena (x :: l)).length_eq
      rw [hcons] at this
      simp at this
    · have hhead : s = menorAux x l := by
        have := head?_ordena l x
        rw [hcons] at this
        simpa using this
      have hs : ∀ a ∈ ss, s.2 ≤ a.2 := by
        have := sorted_ordena (x :: l)
        rw [hcons] at this
        exact fun a ha => (List.pairwise_cons.1 this).1 a ha
      show some (menorAux s ss) = some (menorAux x l)
      rw [menorAux_of_min hs, hhead]

/-! ### Edge-map bookkeeping for the robustness loop -/

theorem setCusto_cons_pos {e : (String × String) × Nat} {es : List ((String × String) × Nat)}
    {k : String × String} {c : Nat} (h : e.1 = k) :
    setCusto (e :: es) k c = (k, c) :: es := by
  simp only [setCusto]
  rw [if_pos h]

theorem setCusto_cons_neg {e : (String × String) × Nat} {es : List ((String × String) × Nat)}
    {k : String × String} {c : Nat} (h : ¬ e.1 = k) :
    setCusto (e :: es) k c = e :: setCusto es k c := by
  simp only [setCusto]
  rw [if_neg h]

theorem find?_eq_of_keysNodup {l : List ((String × String) × Nat)} {k : String × String} {c : Nat}
    (hnd : (l.map (fun e => e.1)).Nodup) (hm : (k, c) ∈ l) :
    l.find? (fun e => decide (e.1 = k)) = some (k, c) := by
  induction l with
  | nil => cases hm
  | cons e es ih =>
    simp only [List.map_cons] at hnd
    rcases List.mem_cons.1 hm with rfl | hm'
    · exact List.find?_cons_of_pos es (by simp)
    · have hk : k ∈ es.map (fun e => e.1) := List.mem_map.2 ⟨(k, c), hm', rfl⟩
      have hek : e.1 ≠ k := by
        intro h
        exact (List.nodup_cons.1 hnd).1 (by rw [h]; exact hk)
      rw [List.find?_cons_of_neg es (by simpa using hek)]
      exact ih (List.nodup_cons.1 hnd).2 hm'

theorem custo_eq_of_mem {g : Grafo} {u v : String} {c : Nat}
    (hnd : (g.edges.map (fun e => e.1)).Nodup) (hm : ((u, v), c) ∈ g.edges) :
    g.custo u v = c := by
  unfold Grafo.custo Grafo.custo?
  rw [find?_eq_of_keysNodup hnd hm]
  rfl

theorem filter_key_eq {l : List ((String × String) × Nat)} {k : String × String} {c : Nat}
    (hnd : (l.map (fun e => e.1)).Nodup) (hm : (k, c) ∈ l) :
    l.filter (fun e => decide (e.1 = k)) = [(k, c)] := by
  induction l with
  | nil => cases hm
  | cons e es ih =>
    simp only [List.map_cons] at hnd
    rcases List.mem_cons.1 hm with rfl | hm'
    · rw [List.filter_cons]
      have h1 : (decide ((k, c).1 = k)) = true := by simp
      rw [h1]
      have h2 : es.filter (fun e => decide (e.1 = k)) = [] := by
        rw [List.filter_eq_nil_iff]
        intro a ha
        simp only [decide_eq_true_eq]
        intro hak
        exact (List.nodup_cons.1 hnd).1 (by rw [← hak]; exact List.mem_map.2 ⟨a, ha, rfl⟩)
      rw [h2]
      rfl
    · have hk : k ∈ es.map (fun e => e.1) := List.mem_map.2 ⟨(k, c), hm', rfl⟩
      have hek : e.1 ≠ k := by
        intro h
        exact (List.nodup_cons.1 hnd).1 (by rw [h]; exact hk)
      rw [List.filter_cons]
      have h1 : (decide (e.1 = k)) = false := by simpa using hek
      rw [h1]
      exact ih (List.nodup_cons.1 hnd).2 hm'

theorem perm_filter_key {l : List ((String × String) × Nat)} {k : String × String} {c : Nat}
    (hnd : (l.map (fun e => e.1)).Nodup) (hm : (k, c) ∈ l) :
    List.Perm (l.filter (fun e => decide (e.1 ≠ k)) ++ [(k, c)]) l := by
  have hpart := List.filter_append_perm (fun e => decide (e.1 ≠ k)) l
  have hneg : l.filter (fun e => !decide (e.1 ≠ k)) = l.filter (fun e => decide (e.1 = k)) := by
    refine List.filter_congr ?_
    intro a ha
    by_cases h : a.1 = k <;> simp [h]
  rw [hneg, filter_key_eq hnd hm] at hpart
  exact hpart

theorem mem_setCusto {l : List ((String × String) × Nat)} {k : String × String} {c : Nat}
    {x : (String × String) × Nat} (h : x ∈ setCusto l k c) :
    x ∈ l ∨ x = (k, c) := by
  induction l with
  | nil => simpa [setCusto] using h
  | cons e es ih =>
    by_cases hek : e.1 = k
    · rw [setCusto_cons_pos hek] at h
      rcases List.mem_cons.1 h with rfl | h'
      · exact Or.inr rfl
      · exact Or.inl (List.mem_cons_of_mem e h')
    · rw [setCusto_cons_neg hek] at h
      rcases List.mem_cons.1 h with rfl | h'
      · exact Or.inl (List.mem_cons_self x es)
      · rcases ih h' with h'' | h''
        · exact Or.inl (List.mem_cons_of_mem e h'')
        · exact Or.inr h''

theorem setCusto_of_not_mem {l : List ((String × String) × Nat)} {k : String × String} {c : Nat}
    (h : ∀ e ∈ l, e.1 ≠ k) : setCusto l k c = l ++ [(k, c)] := by
  induction l with
  | nil => rfl
  | cons e es ih =>
    rw [setCusto_cons_neg (h e (List.mem_cons_self e es))]
    rw [ih (fun a ha => h a (List.mem_cons_of_mem e ha))]
    rfl

theorem find?_setCusto (l : List ((String × String) × Nat)) (k : String × String) (c : Nat) :
    (setCusto l k c).find? (fun e => decide (e.1 = k)) = some (k, c) := by
  induction l with
  | nil => exact List.find?_cons_of_pos _ (by simp)
  | cons e es ih =>
    by_cases hek : e.1 = k
    · rw [setCusto_cons_pos hek]
      exact List.find?_cons_of_pos _ (by simp)
    · rw [setCusto_cons_neg hek]
      rw [List.find?_cons_of_neg _ (by simpa using hek)]
      exact ih

theorem mem_keys_setCusto {l : List ((String × String) × Nat)} {k : String × String} {c : Nat}
    {x : String × String} (h : x ∈ (setCusto l k c).map (fun e => e.1)) :
    x ∈ l.map (fun e => e.1) ∨ x = k := by
  rcases List.mem_map.1 h with ⟨e, he, hx⟩
  rcases mem_setCusto he with h' | h'
  · exact Or.inl (by rw [← hx]; exact List.mem_map.2 ⟨e, h', rfl⟩)
  · subst h'
    exact Or.inr (by rw [← hx])

theorem keys_setCusto_nodup {l : List ((String × String) × Nat)}
    (hnd : (l.map (fun e => e.1)).Nodup) (k : String × String) (c : Nat) :
    ((setCusto l k c).map (fun e => e.1)).Nodup := by
  induction l with
  | nil => simp [setCusto]
  | cons e es ih =>
    simp only [List.map_cons] at hnd
    rcases List.nodup_cons.1 hnd with ⟨he, hes⟩
    by_cases hek : e.1 = k
    · rw [setCusto_cons_pos hek]
      simp only [List.map_cons]
      refine List.nodup_cons.2 ⟨?_, hes⟩
      show k ∉ es.map (fun e => e.1)
      rw [← hek]
      exact he
    · rw [setCusto_cons_neg hek]
      simp only [List.map_cons]
      refine List.nodup_cons.2 ⟨?_, ih hes⟩
      intro hmem
      rcases mem_keys_setCusto hmem with h' | h'
      · exact he h'
      · exact hek h'

/-! ### Well-formedness is preserved by the mutation primitives -/

theorem addNode_of_mem {g : Grafo} {n : String} (h : n ∈ g.nodes) : g.addNode n = g := by
  unfold Grafo.addNode
  rw [if_pos h]

theorem mem_nodes_addNode {g : Grafo} {x : String} (n : String) (h : x ∈ g.nodes) :
    x ∈ (g.addNode n).nodes := by
  unfold Grafo.addNode
  split
  · exact h
  · exact List.mem_append_left _ h

theorem self_mem_nodes_addNode (g : Grafo) (n : String) : n ∈ (g.addNode n).nodes := by
  unfold Grafo.addNode
  split
  · assumption
  · exact List.mem_append_right _ (by simp)

theorem edges_addNode (g : Grafo) (n : String) : (g.addNode n).edges = g.edges := by
  unfold Grafo.addNode
  split <;> rfl

theorem WF_addNode {g : Grafo} (hWF : g.WF) (n : String) : (g.addNode n).WF := by
  unfold Grafo.addNode
  split
  · exact hWF
  · rename_i hn
    refine ⟨?_, hWF.2.1, ?_⟩
    · simpa [List.nodup_append] using ⟨hWF.1, hn⟩
    · intro e he
      exact ⟨List.mem_append_left _ (hWF.2.2 e he).1, List.mem_append_left _ (hWF.2.2 e he).2⟩

theorem WF_addEdge {g : Grafo} (hWF : g.WF) (u v : String) (c : Nat) :
    (g.addEdge u v c).WF := by
  have h1 : ((g.addNode u).addNode v).WF := WF_addNode (WF_addNode hWF u) v
  unfold Grafo.addEdge
  refine ⟨h1.1, keys_setCusto_nodup h1.2.1 (u, v) c, ?_⟩
  intro e he
  rcases mem_setCusto he with h' | h'
  · exact h1.2.2 e h'
  · subst h'
    exact ⟨mem_nodes_addNode v (self_mem_nodes_addNode g u), self_mem_nodes_addNode _ v⟩

theorem WF_removeEdge {g : Grafo} (hWF : g.WF) (u v : String) : (g.removeEdge u v).WF := by
  refine ⟨hWF.1, ?_, ?_⟩
  · exact hWF.2.1.sublist ((List.filter_sublist _).map _)
  · intro e he
    exact hWF.2.2 e (List.mem_filter.1 he).1

/-! ### The robustness loop restores the graph at every step -/

theorem robustezPasso_inv (armazem : Option String) (clientes : List String) {g0 : Grafo}
    (hWF : g0.WF) (st : Grafo × List ((String × String) × Criticidade))
    (uv : String × String) (huv : uv ∈ g0.edges.map (fun e => e.1))
    (hn : st.1.nodes = g0.nodes) (hp : List.Perm st.1.edges g0.edges) :
    (robustezPasso armazem clientes st uv).1.nodes = g0.nodes ∧
      List.Perm (robustezPasso armazem clientes st uv).1.edges g0.edges := by
  rcases List.mem_map.1 huv with ⟨e0, he0, hk0⟩
  have hm0 : (uv, e0.2) ∈ g0.edges := by
    have : (uv, e0.2) = e0 := by
      rcases e0 with ⟨k, c⟩
      simp only at hk0
      rw [← hk0]
    rw [this]
    exact he0
  have hmi : (uv, e0.2) ∈ st.1.edges := hp.mem_iff.2 hm0
  have hndi : (st.1.edges.map (fun e => e.1)).Nodup :=
    ((hp.map (fun e => e.1)).nodup_iff).2 hWF.2.1
  have hcusto : st.1.custo uv.1 uv.2 = e0.2 := by
    have : ((uv.1, uv.2), e0.2) ∈ st.1.edges := by
      rcases uv with ⟨a, b⟩
      exact hmi
    exact custo_eq_of_mem hndi this
  have hsrc : uv.1 ∈ g0.nodes := (hWF.2.2 (uv, e0.2) hm0).1
  have htgt : uv.2 ∈ g0.nodes := (hWF.2.2 (uv, e0.2) hm0).2
  unfold robustezPasso
  simp only [hcusto]
  constructor
  · show (((st.1.removeEdge uv.1 uv.2).addNode uv.1).addNode uv.2).nodes = g0.nodes
    have h1 : (st.1.removeEdge uv.1 uv.2).nodes = g0.nodes := hn
    rw [addNode_of_mem (n := uv.1) (by rw [h1]; exact hsrc)]
    rw [addNode_of_mem (n := uv.2) (by rw [h1]; exact htgt)]
    exact h1
  · show List.Perm (((st.1.removeEdge uv.1 uv.2).addEdge uv.1 uv.2 e0.2).edges) g0.edges
    have h1 : (st.1.removeEdge uv.1 uv.2).nodes = g0.nodes := hn
    unfold Grafo.addEdge
    rw [addNode_of_mem (n := uv.1) (by rw [h1]; exact hsrc)]
    rw [addNode_of_mem (n := uv.2) (by rw [h1]; exact htgt)]
    show List.Perm (setCusto (st.1.removeEdge uv.1 uv.2).edges (uv.1, uv.2) e0.2) g0.edges
    have hkey : uv = (uv.1, uv.2) := rfl
    have hnomem : ∀ e ∈ (st.1.removeEdge uv.1 uv.2).edges, e.1 ≠ (uv.1, uv.2) := by
      intro e he
      have := (List.mem_filter.1 he).2
      simpa using this
    rw [setCusto_of_not_mem hnomem]
    refine List.Perm.trans ?_ hp
    show List.Perm (st.1.edges.filter (fun e => decide (e.1 ≠ (uv.1, uv.2))) ++ [((uv.1, uv.2), e0.2)])
      st.1.edges
    exact perm_filter_key hndi (by rcases uv with ⟨a, b⟩; exact hmi)

theorem robustez_fold_inv (armazem : Option String) (clientes : List String) {g0 : Grafo}
    (hWF : g0.WF) :
    ∀ (l : List (String × String)), (∀ uv ∈ l, uv ∈ g0.edges.map (fun e => e.1)) →
      ∀ (st : Grafo × List ((String × String) × Criticidade)),
        st.1.nodes = g0.nodes → List.Perm st.1.edges g0.edges →
        ((l.foldl (robustezPasso armazem clientes) st).1.nodes = g0.nodes ∧
          List.Perm (l.foldl (robustezPasso armazem clientes) st).1.edges g0.edges) := by
  intro l
  induction l with
  | nil => intro _ st h1 h2; exact ⟨h1, h2⟩
  | cons uv l ih =>
    intro hsub st h1 h2
    have hstep := robustezPasso_inv armazem clientes hWF st uv (hsub uv (by simp)) h1 h2
    exact ih (fun x hx => hsub x (List.mem_cons_of_mem uv hx)) _ hstep.1 hstep.2

theorem chain_subset_nodes {g : Grafo} (hWF : g.WF) :
    ∀ (p : List String) (a : String), a ∈ g.nodes →
      List.Chain' (fun x y => g.hasEdge x y = true) (a :: p) →
      ∀ x ∈ a :: p, x ∈ g.nodes := by
  intro p
  induction p with
  | nil =>
    intro a ha _ x hx
    rcases List.mem_cons.1 hx with rfl | hx'
    · exact ha
    · cases hx'
  | cons b t ih =>
    intro a ha hc x hx
    have hedge := (List.chain'_cons.1 hc).1
    have hb : b ∈ g.nodes := by
      rcases hasEdge_iff.1 hedge with ⟨c, hm⟩
      exact (hWF.2.2 _ hm).2
    rcases List.mem_cons.1 hx with rfl | hx'
    · exact ha
    · exact ih b hb (List.chain'_cons.1 hc).2 x hx'

/-! ### Claims -/

/-- C4.  For every model and every edge `(u, v)` present in it, running
`simular_falha_estrada(u, v)` and then `restaurar_grafo` on the returned
backup restores the state exactly: the whole `RedeDistribuicao` state is the
one before the simulation, and in particular `has_edge(u, v)`, the edge's
cost, and the results of `calcular_caminho_minimo_manual` and
`comparar_rotas` for every origin/destination pair are unchanged. -/
theorem claim_C4_falha_restaurada : ∀ (r : Rede) (u v : String),
    r.grafo.hasEdge u v = true →
    restaurar_grafo (simular_falha_estrada r u v).2 (simular_falha_estrada r u v).1 = r ∧
    (restaurar_grafo (simular_falha_estrada r u v).2
        (simular_falha_estrada r u v).1).grafo.hasEdge u v = r.grafo.hasEdge u v ∧
    (restaurar_grafo (simular_falha_estrada r u v).2
        (simular_falha_estrada r u v).1).grafo.custo? u v = r.grafo.custo? u v ∧
    ∀ o d : String,
      calcular_caminho_minimo_manual (restaurar_grafo (simular_falha_estrada r u v).2
          (simular_falha_estrada r u v).1).grafo o d =
        calcular_caminho_minimo_manual r.grafo o d ∧
      comparar_rotas (restaurar_grafo (simular_falha_estrada r u v).2
          (simular_falha_estrada r u v).1).grafo o d = comparar_rotas r.grafo o d := by
  intro r u v h
  have hs : simular_falha_estrada r u v =
      (some r.grafo, { r with grafo := r.grafo.removeEdge u v }) := by
    unfold simular_falha_estrada
    rw [if_pos h]
  have key : restaurar_grafo (simular_falha_estrada r u v).2
      (simular_falha_estrada r u v).1 = r := by
    rw [hs]
    rfl
  refine ⟨key, ?_, ?_, ?_⟩
  · rw [key]
  · rw [key]
  · intro o d
    rw [key]
    exact ⟨rfl, rfl⟩

/-- Witness for C4 at the concrete single-edge network. -/
theorem claim_C4_witness :
    restaurar_grafo (simular_falha_estrada redeAB "A" "B").2
      (simular_falha_estrada redeAB "A" "B").1 = redeAB :=
  (claim_C4_falha_restaurada redeAB "A" "B" (by decide)).1

/-- C7.  For every node `o` present in the model,
`calcular_caminho_minimo_manual(o, o)` returns the trivial path `[o]` with
cost 0. -/
theorem claim_C7_caminho_trivial : ∀ (g : Grafo) (o : String), o ∈ g.nodes →
    calcular_caminho_minimo_manual g o o = some ([o], 0) := by
  intro g o ho
  unfold calcular_caminho_minimo_manual
  rw [if_neg (by simp [ho]), if_pos rfl]

/-- Witness for C7 at the scenario network. -/
theorem claim_C7_witness :
    calcular_caminho_minimo_manual redeABC.grafo "A" "A" = some (["A"], 0) :=
  claim_C7_caminho_trivial redeABC.grafo "A" (by decide)

/-- C8.  `analisar_robustez` flags as cut-risk exactly the nodes other than
the warehouse whose in-degree or out-degree in the current graph equals 1
(a purely structural check, independent of connectivity). -/
theorem claim_C8_cidades_criticas : ∀ (r : Rede), r.grafo.WF → ∀ c : String,
    ((∃ e s, (c, e, s) ∈ (analisar_robustez r).cidades_criticas) ↔
      (c ∈ r.grafo.nodes ∧ r.armazem ≠ some c ∧
        (r.grafo.inDegree c = 1 ∨ r.grafo.outDegree c = 1))) := by
  intro r hWF c
  have hinv := robustez_fold_inv r.armazem r.clientes hWF (r.grafo.edges.map (fun e => e.1))
    (fun uv h => h) (r.grafo, []) rfl (List.Perm.refl _)
  rcases hinv with ⟨hn, hp⟩
  have hin : ∀ x, ((r.grafo.edges.map (fun e => e.1)).foldl
      (robustezPasso r.armazem r.clientes) (r.grafo, [])).1.inDegree x = r.grafo.inDegree x := by
    intro x
    exact hp.countP_eq _
  have hout : ∀ x, ((r.grafo.edges.map (fun e => e.1)).foldl
      (robustezPasso r.armazem r.clientes) (r.grafo, [])).1.outDegree x = r.grafo.outDegree x := by
    intro x
    exact hp.countP_eq _
  show (∃ e s, (c, e, s) ∈ (((r.grafo.edges.map (fun e => e.1)).foldl
      (robustezPasso r.armazem r.clientes) (r.grafo, [])).1.nodes.filterMap _)) ↔ _
  constructor
  · rintro ⟨e, s, hmem⟩
    rcases List.mem_filterMap.1 hmem with ⟨cidade, hcid, hf⟩
    by_cases harm : r.armazem = some cidade
    · rw [if_pos harm] at hf
      cases hf
    · rw [if_neg harm] at hf
      simp only at hf
      split at hf
      · rcases Option.some.inj hf with h'
        have hcc : cidade = c := congrArg Prod.fst h'
        subst hcc
        refine ⟨hn ▸ hcid, harm, ?_⟩
        rename_i hdeg
        rw [hin cidade, hout cidade] at hdeg
        exact hdeg
      · cases hf
  · rintro ⟨hc, harm, hdeg⟩
    refine ⟨((r.grafo.edges.map (fun e => e.1)).foldl
        (robustezPasso r.armazem r.clientes) (r.grafo, [])).1.inDegree c,
      ((r.grafo.edges.map (fun e => e.1)).foldl
        (robustezPasso r.armazem r.clientes) (r.grafo, [])).1.outDegree c, ?_⟩
    refine List.mem_filterMap.2 ⟨c, hn ▸ hc, ?_⟩
    simp only
    rw [if_neg harm, if_pos (by rw [hin c, hout c]; exact hdeg)]

/-- Witness for C8: in the scenario network, node `B` has in-degree 1 and
out-degree 1 and is flagged cut-risk. -/
theorem claim_C8_witness :
    ∃ e s, ("B", e, s) ∈ (analisar_robustez redeABC).cidades_criticas :=
  (claim_C8_cidades_criticas redeABC (by decide) "B").2
    ⟨by decide, by decide, by decide⟩

/-- C9.  `adicionar_estrada(u, v, c)` never fails: absent endpoints are
auto-created, the cost of an existing ordered pair is overwritten, the model
keeps at most one edge per ordered pair (part of well-formedness), and
afterwards the edge `(u, v)` is present with cost `c`. -/
theorem claim_C9_adicionar_estrada : ∀ (r : Rede) (u v : String) (c : Nat),
    r.grafo.WF →
    ((adicionar_estrada r u v c).grafo.WF ∧
      u ∈ (adicionar_estrada r u v c).grafo.nodes ∧
      v ∈ (adicionar_estrada r u v c).grafo.nodes ∧
      (adicionar_estrada r u v c).grafo.hasEdge u v = true ∧
      (adicionar_estrada r u v c).grafo.custo? u v = some c) := by
  intro r u v c hWF
  have hcusto : (adicionar_estrada r u v c).grafo.custo? u v = some c := by
    show (r.grafo.addEdge u v c).custo? u v = some c
    unfold Grafo.custo? Grafo.addEdge
    rw [find?_setCusto]
    rfl
  refine ⟨WF_addEdge hWF u v c, ?_, ?_, ?_, hcusto⟩
  · exact mem_nodes_addNode v (self_mem_nodes_addNode r.grafo u)
  · exact self_mem_nodes_addNode _ v
  · unfold Grafo.hasEdge
    rw [hcusto]
    rfl

/-- Witness for C9 on the empty model: both endpoints are created and the
edge carries the requested cost. -/
theorem claim_C9_witness :
    (adicionar_estrada Rede.nova "X" "Y" 7).grafo.WF ∧
      "X" ∈ (adicionar_estrada Rede.nova "X" "Y" 7).grafo.nodes ∧
      "Y" ∈ (adicionar_estrada Rede.nova "X" "Y" 7).grafo.nodes ∧
      (adicionar_estrada Rede.nova "X" "Y" 7).grafo.hasEdge "X" "Y" = true ∧
      (adicionar_estrada Rede.nova "X" "Y" 7).grafo.custo? "X" "Y" = some 7 :=
  claim_C9_adicionar_estrada Rede.nova "X" "Y" 7 (by decide)

/-- C10.  The exhaustive depth-first enumeration terminates on every finite
graph: `g.nodes.length + 1` units of fuel reach the fixpoint (any larger
fuel yields the same result), and, because the path-local visited set
excludes repeated nodes, every recorded path is duplicate-free and (when the
origin is a node of the graph) no longer than the node count. -/
theorem claim_C10_terminacao : ∀ (g : Grafo) (o d : String) (fuel : Nat),
    g.WF → g.nodes.length + 1 ≤ fuel →
    (dfsAll g d fuel o [o] 0 [] = dfsAll g d (g.nodes.length + 1) o [o] 0 [] ∧
      ∀ q c, (q, c) ∈ dfsAll g d fuel o [o] 0 [] →
        q.Nodup ∧ (o ∈ g.nodes → q.length ≤ g.nodes.length)) := by
  intro g o d fuel hWF hfuel
  have hfilter : g.nodes.filter (fun n => decide (n ∉ ([] : List String))) = g.nodes :=
    List.filter_eq_self.2 (by simp)
  have hstable : dfsAll g d fuel o [o] 0 [] = dfsAll g d (g.nodes.length + 1) o [o] 0 [] := by
    refine dfsAll_fuel_congr hWF fuel (g.nodes.length + 1) o [o] [] 0 (by simp) ?_ ?_
    · rw [hfilter]; omega
    · rw [hfilter]; omega
  refine ⟨hstable, ?_⟩
  intro q c hmem
  rw [hstable] at hmem
  rcases (dfsAll_top_mem hWF o d q c).1 hmem with ⟨⟨hhead, hlast, hchain, hnodup⟩, -⟩
  refine ⟨hnodup, ?_⟩
  intro ho
  cases q with
  | nil => cases hhead
  | cons a t =>
    have ha : a = o := by simpa using hhead
    subst ha
    have hsubset : ∀ x ∈ a :: t, x ∈ g.nodes := chain_subset_nodes hWF t a ho hchain
    have hsubperm := List.subperm_of_subset hnodup (fun x hx => hsubset x hx)
    exact hsubperm.length_le

/-- Witness for C10 at the scenario network with surplus fuel. -/
theorem claim_C10_witness :
    dfsAll redeABC.grafo "C" 10 "A" ["A"] 0 [] =
      dfsAll redeABC.grafo "C" (redeABC.grafo.nodes.length + 1) "A" ["A"] 0 [] :=
  (claim_C10_terminacao redeABC.grafo "A" "C" 10 (by decide) (by decide)).1

/-- In a model with no edges, no simple path joins two distinct endpoints. -/
theorem sem_caminho_em_grafo_sem_arestas {g : Grafo} (hedges : g.edges = [])
    {o d : String} (hod : o ≠ d) : ∀ p, ¬ CaminhoSimples g o d p := by
  intro p hp
  rcases hp with ⟨hh, hl, hc, -⟩
  cases p with
  | nil => cases hh
  | cons a t =>
    have ha : a = o := by simpa using hh
    subst ha
    cases t with
    | nil => exact hod (by simpa using hl)
    | cons b t' =>
      have hedge := (List.chain'_cons.1 hc).1
      rcases hasEdge_iff.1 hedge with ⟨c, hm⟩
      rw [hedges] at hm
      cases hm

/-- C1.  The specification's contract compares each post-removal
warehouse→customer cost to the *pre-removal* minimum cost and requires edge
`A→B` of the scenario graph to be classified `important`.  The source
computes both the "original" and the "new" minimum-cost path with two
identical calls on the already-mutated graph, so the delta is always zero
and the `important` classification is unreachable: on the scenario graph —
where removing `A→B` does raise the cost of route A→C from 15 to 30 while
keeping it feasible — the analysis reports no critical or important edge at
all. -/
theorem claim_C1_importante_inatingivel :
    calcular_caminho_minimo_manual redeABC.grafo "A" "C" = some (["A", "B", "C"], 15) ∧
    calcular_caminho_minimo_manual (redeABC.grafo.removeEdge "A" "B") "A" "C" =
      some (["A", "C"], 30) ∧
    (analisar_robustez redeABC).estradas_criticas = [] :=
  ⟨by decide, by decide, by decide⟩

/-- Counterexample for C2 as stated over *every* origin/destination pair:
for an origin equal to the destination but absent from the model,
`comparar_rotas` still enumerates the trivial path (its `dfs` tests
`atual == destino` before any presence check), so the minimum over the
enumeration is `([A], 0)`, while the direct minimum-cost query validates its
endpoints and answers `None`. -/
theorem claim_C2_counterexample :
    comparar_rotas Rede.nova.grafo "A" "A" = Except.ok [(["A"], 0)] ∧
    menorPorCusto [(["A"], 0)] = some (["A"], 0) ∧
    calcular_caminho_minimo_manual Rede.nova.grafo "A" "A" = none :=
  ⟨rfl, rfl, rfl⟩

/-- C2 (amended: both endpoints present in the model).  Taking the minimum
by cost — Python's `min`, first minimal element wins — over the pairs
returned by `comparar_rotas` yields exactly the result of
`calcular_caminho_minimo_manual`, and the two agree that no path exists when
the enumeration is empty. -/
theorem claim_C2_minimo_coincide : ∀ (g : Grafo) (origem destino : String),
    origem ∈ g.nodes → destino ∈ g.nodes →
    ∃ L, comparar_rotas g origem destino = Except.ok L ∧
      menorPorCusto L = calcular_caminho_minimo_manual g origem destino ∧
      (L = [] → calcular_caminho_minimo_manual g origem destino = none) := by
  intro g o d ho hd
  by_cases hod : o = d
  · subst hod
    have hdfs : dfsAll g o (g.nodes.length + 1) o [o] 0 [] = [([o], 0)] := by
      simp [dfsAll]
    refine ⟨[([o], 0)], ?_, ?_, ?_⟩
    · unfold comparar_rotas
      rw [if_neg (by simp), hdfs]
      rfl
    · unfold calcular_caminho_minimo_manual
      rw [if_neg (by simp [ho]), if_pos rfl]
      rfl
    · intro h
      cases h
  · refine ⟨ordenaPorCusto (dfsAll g d (g.nodes.length + 1) o [o] 0 []), ?_, ?_, ?_⟩
    · unfold comparar_rotas
      rw [if_neg (by simp [ho])]
    · rw [menorPorCusto_ordena]
      unfold calcular_caminho_minimo_manual
      rw [if_neg (by simp [ho, hd]), if_neg hod]
    · intro hL
      unfold calcular_caminho_minimo_manual
      rw [if_neg (by simp [ho, hd]), if_neg hod]
      have hlen := (perm_ordena (dfsAll g d (g.nodes.length + 1) o [o] 0 [])).length_eq
      rw [hL] at hlen
      have hnil : dfsAll g d (g.nodes.length + 1) o [o] 0 [] = [] := by
        cases hdfs : dfsAll g d (g.nodes.length + 1) o [o] 0 [] with
        | nil => rfl
        | cons x xs =>
          rw [hdfs] at hlen
          simp at hlen
      rw [hnil]
      rfl

/-- Witness for C2 at the scenario network. -/
theorem claim_C2_witness :
    ∃ L, comparar_rotas redeABC.grafo "A" "C" = Except.ok L ∧
      menorPorCusto L = calcular_caminho_minimo_manual redeABC.grafo "A" "C" ∧
      (L = [] → calcular_caminho_minimo_manual redeABC.grafo "A" "C" = none) :=
  claim_C2_minimo_coincide redeABC.grafo "A" "C" (by decide) (by decide)

/-- Counterexample for C3 as stated: the absent-endpoint outcome and the
present-but-unreachable outcome are the *same* value `(None, None)`, so the
input-validation failure is not reported distinctly.  Here `C` is absent
while `A` and `B` are present with no connecting edge. -/
theorem claim_C3_counterexample :
    "C" ∉ redeDesconexa.grafo.nodes ∧ "A" ∈ redeDesconexa.grafo.nodes ∧
    "B" ∈ redeDesconexa.grafo.nodes ∧
    calcular_caminho_minimo_manual redeDesconexa.grafo "A" "C" = none ∧
    calcular_caminho_minimo_manual redeDesconexa.grafo "A" "B" = none :=
  ⟨by decide, by decide, by decide, by decide, by decide⟩

/-- C3 (amended).  When either endpoint is absent the minimum-cost query
returns the "not found" result `(None, None)`; this is the *same* value it
returns when both endpoints are present but the destination is unreachable,
so the two outcomes are not distinguishable from the return value. -/
theorem claim_C3_nao_encontrado : ∀ (g : Grafo) (origem destino : String),
    ((origem ∉ g.nodes ∨ destino ∉ g.nodes) →
      calcular_caminho_minimo_manual g origem destino = none) ∧
    (g.WF → origem ∈ g.nodes → destino ∈ g.nodes →
      (∀ p, ¬ CaminhoSimples g origem destino p) →
      calcular_caminho_minimo_manual g origem destino = none) := by
  intro g o d
  constructor
  · intro h
    unfold calcular_caminho_minimo_manual
    rw [if_pos h]
  · intro hWF ho hd hnp
    have hod : o ≠ d := by
      intro h
      subst h
      exact hnp [o] ⟨rfl, rfl, by simp, by simp⟩
    unfold calcular_caminho_minimo_manual
    rw [if_neg (by simp [ho, hd]), if_neg hod]
    have hnil : dfsAll g d (g.nodes.length + 1) o [o] 0 [] = [] := by
      rw [List.eq_nil_iff_forall_not_mem]
      intro a
      rcases a with ⟨q, c⟩
      intro hmem
      exact hnp q ((dfsAll_top_mem hWF o d q c).1 hmem).1
    rw [hnil]
    rfl

/-- Witness for C3: both branches of the amended claim at the two-node
edgeless network. -/
theorem claim_C3_witness :
    calcular_caminho_minimo_manual redeDesconexa.grafo "A" "C" = none ∧
    calcular_caminho_minimo_manual redeDesconexa.grafo "A" "B" = none :=
  ⟨(claim_C3_nao_encontrado redeDesconexa.grafo "A" "C").1 (Or.inr (by decide)),
   (claim_C3_nao_encontrado redeDesconexa.grafo "A" "B").2 (by decide) (by decide) (by decide)
     (sem_caminho_em_grafo_sem_arestas rfl (by decide))⟩

/-- C5.  On the model whose only edge is `A→B` (cost 1) with warehouse `A`
and customer roster `[B]`, the robustness analysis classifies `A→B` as
critical and lists customer `B` under that edge's impossible routes. -/
theorem claim_C5_aresta_critica :
    (analisar_robustez redeAB).estradas_criticas =
      [(("A", "B"), Criticidade.critica ["B"])] := by
  decide

/-- Counterexample for C6 as stated over *every* origin/destination pair:
for an absent origin distinct from the destination, `comparar_rotas` does
not return the (empty) set of simple paths — `grafo.successors(origem)`
raises `NetworkXError`, modelled as `Except.error`. -/
theorem claim_C6_counterexample :
    comparar_rotas Rede.nova.grafo "A" "B" = Except.error () ∧
    (∀ p, ¬ CaminhoSimples Rede.nova.grafo "A" "B" p) :=
  ⟨rfl, sem_caminho_em_grafo_sem_arestas rfl (by decide)⟩

/-- C6 (amended: origin present in the model).  `comparar_rotas` returns
exactly the simple directed paths from origin to destination, each paired
with its total edge-cost sum, with no path listed twice, sorted ascending by
cost; in particular, on the scenario graph it returns `([A,B,C], 15)`
followed by `([A,C], 30)`. -/
theorem claim_C6_enumeracao_completa :
    (∀ (g : Grafo) (origem destino : String), g.WF → origem ∈ g.nodes →
      ∃ L, comparar_rotas g origem destino = Except.ok L ∧
        (∀ q c, ((q, c) ∈ L ↔
          CaminhoSimples g origem destino q ∧ c = custoCaminho g q)) ∧
        L.Pairwise (fun a b => a.2 ≤ b.2) ∧ (L.map (fun r => r.1)).Nodup) ∧
    comparar_rotas redeABC.grafo "A" "C" =
      Except.ok [(["A", "B", "C"], 15), (["A", "C"], 30)] := by
  constructor
  · intro g o d hWF ho
    refine ⟨ordenaPorCusto (dfsAll g d (g.nodes.length + 1) o [o] 0 []), ?_, ?_, ?_, ?_⟩
    · unfold comparar_rotas
      rw [if_neg (by simp [ho])]
    · intro q c
      rw [(perm_ordena _).mem_iff]
      exact dfsAll_top_mem hWF o d q c
    · exact sorted_ordena _
    · exact (((perm_ordena _).map (fun r => r.1)).nodup_iff).2
        (dfsAll_paths_nodup hWF (g.nodes.length + 1) o [o] [] 0)
  · rfl

/-- Witness for C6 at the scenario network. -/
theorem claim_C6_witness :
    ∃ L, comparar_rotas redeABC.grafo "A" "C" = Except.ok L ∧
      (∀ q c, ((q, c) ∈ L ↔
        CaminhoSimples redeABC.grafo "A" "C" q ∧ c = custoCaminho redeABC.grafo q)) ∧
      L.Pairwise (fun a b => a.2 ≤ b.2) ∧ (L.map (fun r => r.1)).Nodup :=
  claim_C6_enumeracao_completa.1 redeABC.grafo "A" "C" (by decide) (by decide)
